import Mathlib

/-!
Verification of the MCTS engine in `agent.h` (class `MCTS_player` and its
nested class `Node`, NoGo framework).  Each C++ fragment relevant to the
claims is embedded as a Lean definition; machine integers (`size_t`, `int`)
are modelled as `ℕ`/`ℤ` (all counters involved stay far below any overflow
boundary during a search), `double` is modelled as `ℝ`, and C++ code paths
with no defined result are modelled with `Option`.
-/

namespace NoGoMCTS

/-! ### Search-driver loop control (`MCTS_player::take_action`, lines 425-490)

The C++ driver is a do-while loop:

  int itr = 0;
  do { ...body...; dt = elapsed; itr++; } while (dt < threshold_time && itr <= cycles);

`timeOk k` embeds the outcome of the wall-clock test `dt < threshold_time`
evaluated at the end of the k-th completed iteration (`k` counts from 1);
the body itself is irrelevant to the iteration count and is elided. -/

/-- One continuation test of the do-while loop: after the body has run,
`itr` has just been incremented to `itr + 1`; the loop continues while
`dt < threshold_time && itr <= cycles`. Returns the total number of
iterations executed, starting from counter value `itr`. -/
def loopRun (cycles : ℕ) (timeOk : ℕ → Bool) (itr : ℕ) : ℕ :=
  let itr' := itr + 1
  if timeOk itr' = true ∧ itr' ≤ cycles then loopRun cycles timeOk itr' else itr'
termination_by cycles + 1 - itr
decreasing_by omega

/-- Total number of iterations the do-while loop of `take_action` executes
(`itr` starts at 0). -/
def loopCount (cycles : ℕ) (timeOk : ℕ → Bool) : ℕ :=
  loopRun cycles timeOk 0

theorem loopRun_gt (cycles : ℕ) (timeOk : ℕ → Bool) :
    ∀ d itr, cycles + 1 - itr ≤ d → itr < loopRun cycles timeOk itr := by
  intro d
  induction d with
  | zero =>
      intro itr h
      rw [loopRun]
      have hc : ¬ (timeOk (itr + 1) = true ∧ itr + 1 ≤ cycles) := by
        rintro ⟨-, h2⟩; omega
      simp only [hc, if_false]
      omega
  | succ d ih =>
      intro itr h
      rw [loopRun]
      by_cases hc : timeOk (itr + 1) = true ∧ itr + 1 ≤ cycles
      · rw [if_pos hc]
        have := ih (itr + 1) (by omega)
        omega
      · rw [if_neg hc]
        omega

theorem loopRun_le (cycles : ℕ) (timeOk : ℕ → Bool) :
    ∀ d itr, cycles + 1 - itr ≤ d →
      loopRun cycles timeOk itr ≤ max (itr + 1) (cycles + 1) := by
  intro d
  induction d with
  | zero =>
      intro itr h
      rw [loopRun]
      have hc : ¬ (timeOk (itr + 1) = true ∧ itr + 1 ≤ cycles) := by
        rintro ⟨-, h2⟩; omega
      simp only [hc, if_false]
      omega
  | succ d ih =>
      intro itr h
      rw [loopRun]
      by_cases hc : timeOk (itr + 1) = true ∧ itr + 1 ≤ cycles
      · rw [if_pos hc]
        have := ih (itr + 1) (by omega)
        omega
      · rw [if_neg hc]
        omega

theorem loopRun_all_time_ok (cycles : ℕ) :
    ∀ d itr, cycles + 1 - itr ≤ d → itr ≤ cycles →
      loopRun cycles (fun _ => true) itr = cycles + 1 := by
  intro d
  induction d with
  | zero => intro itr h h2; omega
  | succ d ih =>
      intro itr h h2
      rw [loopRun]
      by_cases hc : itr + 1 ≤ cycles
      · rw [if_pos (And.intro rfl hc)]
        exact ih (itr + 1) (by omega) hc
      · rw [if_neg (fun hh => hc hh.2)]
        omega

/-- C6: for every non-negative `cycles`, the do-while loop of `take_action`
executes at least one and at most `cycles + 1` iterations; when the
wall-clock test never fails it executes exactly `cycles + 1` iterations, and
with `cycles = 0` it executes exactly one iteration. -/
theorem take_action_loop_iteration_count (cycles : ℕ) (timeOk : ℕ → Bool) :
    1 ≤ loopCount cycles timeOk ∧
    loopCount cycles timeOk ≤ cycles + 1 ∧
    ((∀ k, timeOk k = true) → loopCount cycles timeOk = cycles + 1) ∧
    loopCount 0 timeOk = 1 := by
  refine ⟨?_, ?_, ?_, ?_⟩
  · have := loopRun_gt cycles timeOk (cycles + 1) 0 (by omega)
    unfold loopCount; omega
  · have := loopRun_le cycles timeOk (cycles + 1) 0 (by omega)
    unfold loopCount; omega
  · intro hall
    have hfun : timeOk = (fun _ => true) := by
      funext k; exact hall k
    unfold loopCount
    rw [hfun]
    exact loopRun_all_time_ok cycles (cycles + 1) 0 (by omega) (by omega)
  · unfold loopCount
    rw [loopRun]
    rw [if_neg (fun hh => by omega)]

/-- Witness for C6 at `cycles = 2` with a clock that never expires. -/
theorem take_action_loop_iteration_count_witness :
    loopCount 2 (fun _ => true) = 3 ∧ loopCount 0 (fun _ => true) = 1 :=
  ⟨(take_action_loop_iteration_count 2 (fun _ => true)).2.2.1 (fun _ => rfl),
   (take_action_loop_iteration_count 0 (fun _ => true)).2.2.2⟩

/-! ### Node statistics (`MCTS_player::Node`, lines 622-624 and 649)

The node declares `size_t visits_ = 0, wins_ = 0;` and the only code that
ever modifies the two counters is

  void update(bool win){ ++visits_; wins_ += win ? 1 : 0; }
-/

/-- Visit/win counters of a `Node`. -/
structure NodeStats where
  visits : ℕ
  wins : ℕ
  deriving DecidableEq, Repr

/-- Counter state of a freshly constructed `Node` (member initializers
`visits_ = 0, wins_ = 0`; the constructor does not touch them). -/
def initStats : NodeStats := ⟨0, 0⟩

/-- Embeds `Node::update`: `++visits_; wins_ += win ? 1 : 0;`. -/
def update (s : NodeStats) (win : Bool) : NodeStats :=
  ⟨s.visits + 1, s.wins + if win then 1 else 0⟩

/-- The counter state of a node after the sequence `ws` of `update` calls
it has received since construction; `update` is the only operation of the
search that writes either counter. -/
def applyUpdates (ws : List Bool) : NodeStats :=
  ws.foldl update initStats

theorem update_mono (s : NodeStats) (win : Bool) :
    s.wins ≤ s.visits → (update s win).wins ≤ (update s win).visits := by
  intro h
  unfold update
  cases win <;> simp <;> omega

theorem foldl_update_mono (ws : List Bool) :
    ∀ s : NodeStats, s.wins ≤ s.visits →
      (ws.foldl update s).wins ≤ (ws.foldl update s).visits := by
  induction ws with
  | nil => intro s h; simpa using h
  | cons w ws ih =>
      intro s h
      simpa using ih (update s w) (update_mono s w h)

/-- C8: `wins_ ≤ visits_` holds for every node at any point of the search:
it holds at construction, and it is preserved by `update` — the only
counter-writing operation any phase of the search performs — hence it holds
after every sequence of updates a node can receive. -/
theorem node_wins_le_visits :
    initStats.wins ≤ initStats.visits ∧
    (∀ (s : NodeStats) (win : Bool),
      s.wins ≤ s.visits → (update s win).wins ≤ (update s win).visits) ∧
    (∀ ws : List Bool, (applyUpdates ws).wins ≤ (applyUpdates ws).visits) := by
  refine ⟨le_refl 0, update_mono, ?_⟩
  intro ws
  exact foldl_update_mono ws initStats (le_refl 0)

/-- Witness for C8 at a concrete update sequence. -/
theorem node_wins_le_visits_witness :
    (update ⟨2, 1⟩ true).wins ≤ (update ⟨2, 1⟩ true).visits ∧
    (applyUpdates [true, false, true]).wins ≤ (applyUpdates [true, false, true]).visits :=
  ⟨(node_wins_le_visits).2.1 ⟨2, 1⟩ true (by decide),
   (node_wins_le_visits).2.2 [true, false, true]⟩

/-! ### Backpropagation (`MCTS_player::take_action`, lines 479-483)

  while (node != nullptr) {
    node->update(winner == node->get_player());
    node = node->get_parent();
  }

The parent chain from the node the iteration stopped at (the just-created
child, or the selected terminal node) up to the root is embedded as a list;
`get_player()` returns the node's `bw_` field. -/

/-- One node on the backpropagation path: its `bw_` field and counters. -/
structure PathNode where
  bw : ℕ
  stats : NodeStats
  deriving DecidableEq, Repr

/-- Embeds the backpropagation loop: every node on the parent chain receives
exactly one `update(winner == node->get_player())` call. -/
def backpropagate (winner : ℕ) (path : List PathNode) : List PathNode :=
  path.map (fun n => ⟨n.bw, update n.stats (winner == n.bw)⟩)

/-- C2: backpropagation calls `update` exactly once on every node of the
parent chain (the list keeps its length, and the node at every position `i`
is replaced by exactly one `update` of itself): position `i` keeps its
`bw_`, gains exactly one visit, and gains one win exactly when the rollout
winner equals its `bw_`; positions beyond the chain stay absent. -/
theorem backpropagate_updates_each_node_once (winner : ℕ) (path : List PathNode) (i : ℕ) :
    (backpropagate winner path).length = path.length ∧
    (backpropagate winner path).get? i = (path.get? i).map
      (fun n => ⟨n.bw, ⟨n.stats.visits + 1,
        n.stats.wins + if winner = n.bw then 1 else 0⟩⟩) := by
  constructor
  · simp [backpropagate]
  · simp only [backpropagate, List.get?_map]
    cases path.get? i with
    | none => rfl
    | some n =>
        simp only [Option.map_some']
        congr 1
        unfold update
        by_cases h : winner = n.bw
        · simp [h]
        · simp [h, Ne.symm h]

/-! ### `std::max_element` with comparator `lhs < rhs`

Both `get_UCT_child` (over the children's `uct_score_`) and the final move
selection (over the `move_ratio` map) call `std::max_element` with a
strictly-less comparator.  Its loop keeps the current best and replaces it
exactly when `best < current`, so it returns the first position attaining
the maximum. -/

/-- The scanning loop of `std::max_element`: `best` is the running
(index, value) pair, `i` the index of the head of the remaining list;
the best is replaced exactly when `best.2 < x`. -/
def maxElemScan {α : Type} [LinearOrder α] : ℕ × α → List α → ℕ → ℕ × α
  | best, [], _ => best
  | best, x :: xs, i =>
      maxElemScan (if best.2 < x then (i, x) else best) xs (i + 1)

/-- Index returned by `std::max_element(first, last, lt)` on a list
(0 on an empty list, where the C++ iterator would be `last`). -/
def maxElemIdx {α : Type} [LinearOrder α] : List α → ℕ
  | [] => 0
  | x :: xs => (maxElemScan (0, x) xs 1).1

theorem maxElemScan_spec {α : Type} [LinearOrder α] (l : List α) :
    ∀ (best : ℕ × α) (i : ℕ),
      (best.2 ≤ (maxElemScan best l i).2) ∧
      (∀ x ∈ l, x ≤ (maxElemScan best l i).2) ∧
      ((maxElemScan best l i) = best ∧ (∀ x ∈ l, x ≤ best.2) ∨
        (∃ k, ∃ hk : k < l.length,
          (maxElemScan best l i) = (i + k, l.get ⟨k, hk⟩) ∧
          best.2 < l.get ⟨k, hk⟩ ∧
          (∀ m, ∀ hm : m < l.length, m < k → l.get ⟨m, hm⟩ < l.get ⟨k, hk⟩))) := by
  induction l with
  | nil =>
      intro best i
      exact ⟨le_refl _, by simp, Or.inl ⟨rfl, by simp⟩⟩
  | cons x xs ih =>
      intro best i
      simp only [maxElemScan]
      by_cases hx : best.2 < x
      · rw [if_pos hx]
        obtain ⟨h1, h2, h3⟩ := ih (i, x) (i + 1)
        refine ⟨le_trans (le_of_lt hx) h1, ?_, ?_⟩
        · intro y hy
          rcases List.mem_cons.mp hy with hy | hy
          · exact hy ▸ h1
          · exact h2 y hy
        · rcases h3 with ⟨heq, hall⟩ | ⟨k, hk, heq, hlt, hfirst⟩
          · refine Or.inr ⟨0, by simp, ?_, by simpa using hx, ?_⟩
            · simpa using heq
            · intro m hm hm0; omega
          · refine Or.inr ⟨k + 1, by simpa using hk, ?_, ?_, ?_⟩
            · rw [heq]
              simp only [List.get_cons_succ, Prod.mk.injEq]
              exact ⟨by omega, trivial⟩
            · simp only [List.get_cons_succ]
              exact lt_trans hx hlt
            · intro m hm hmk
              simp only [List.get_cons_succ]
              match m with
              | 0 =>
                  simp only [List.get]
                  exact hlt
              | Nat.succ m' =>
                  simp only [List.get_cons_succ]
                  exact hfirst m' (by simpa using hm) (by omega)
      · rw [if_neg hx]
        obtain ⟨h1, h2, h3⟩ := ih best (i + 1)
        have hxle : x ≤ best.2 := le_of_not_lt hx
        refine ⟨h1, ?_, ?_⟩
        · intro y hy
          rcases List.mem_cons.mp hy with hy | hy
          · exact hy ▸ le_trans hxle h1
          · exact h2 y hy
        · rcases h3 with ⟨heq, hall⟩ | ⟨k, hk, heq, hlt, hfirst⟩
          · refine Or.inl ⟨heq, ?_⟩
            intro y hy
            rcases List.mem_cons.mp hy with hy | hy
            · exact hy ▸ hxle
            · exact hall y hy
          · refine Or.inr ⟨k + 1, by simpa using hk, ?_, ?_, ?_⟩
            · rw [heq]
              simp only [List.get_cons_succ, Prod.mk.injEq]
              exact ⟨by omega, trivial⟩
            · simp only [List.get_cons_succ]
              exact hlt
            · intro m hm hmk
              simp only [List.get_cons_succ]
              match m with
              | 0 =>
                  simp only [List.get]
                  exact lt_of_le_of_lt hxle hlt
              | Nat.succ m' =>
                  simp only [List.get_cons_succ]
                  exact hfirst m' (by simpa using hm) (by omega)

/-- Specification of `maxElemIdx` on a nonempty list: the returned index is
in range, its element is a maximum of the list, and every element strictly
before it is strictly smaller (first occurrence of the maximum). -/
theorem maxElemIdx_spec {α : Type} [LinearOrder α] (l : List α) (hne : l ≠ []) :
    ∃ hi : maxElemIdx l < l.length,
      (∀ x ∈ l, x ≤ l.get ⟨maxElemIdx l, hi⟩) ∧
      (∀ m, ∀ hm : m < l.length, m < maxElemIdx l →
        l.get ⟨m, hm⟩ < l.get ⟨maxElemIdx l, hi⟩) := by
  match l, hne with
  | x :: xs, _ =>
      obtain ⟨h1, h2, h3⟩ := maxElemScan_spec xs (0, x) 1
      rcases h3 with ⟨heq, hall⟩ | ⟨k, hk, heq, hlt, hfirst⟩
      · refine ⟨?_, ?_, ?_⟩
        · show maxElemIdx (x :: xs) < (x :: xs).length
          simp [maxElemIdx, heq]
        · intro y hy
          have hidx : maxElemIdx (x :: xs) = 0 := by simp [maxElemIdx, heq]
          rcases List.mem_cons.mp hy with hy | hy
          · simp only [hidx, List.get]
            exact le_of_eq hy
          · simp only [hidx, List.get]
            exact hall y hy
        · intro m hm hmk
          have hidx : maxElemIdx (x :: xs) = 0 := by simp [maxElemIdx, heq]
          rw [hidx] at hmk
          omega
      · have hidx : maxElemIdx (x :: xs) = k + 1 := by
          simp [maxElemIdx, heq]
          omega
        rw [heq] at h2
        refine ⟨?_, ?_, ?_⟩
        · show maxElemIdx (x :: xs) < (x :: xs).length
          simp only [hidx, List.length_cons]
          omega
        · intro y hy
          have hget : (x :: xs).get ⟨maxElemIdx (x :: xs), by simp [hidx]; omega⟩ =
              xs.get ⟨k, hk⟩ := by
            simp only [hidx, List.get_cons_succ]
          rcases List.mem_cons.mp hy with hy | hy
          · rw [hget]; exact hy ▸ le_of_lt hlt
          · rw [hget]; exact h2 y hy
        · intro m hm hmk
          rw [hidx] at hmk
          simp only [hidx, List.get_cons_succ]
          match m with
          | 0 =>
              simp only [List.get]
              exact hlt
          | Nat.succ m' =>
              simp only [List.get_cons_succ]
              exact hfirst m' (by simpa using hm) (by omega)

/-! ### Final move selection (`MCTS_player::take_action`, lines 492-509)

  std::vector<Node> &children = root.get_children();
  if(children.empty()) return action();
  std::map<size_t, float> move_ratio;
  for (const auto &child : children) { ...; float ratio = (float) visits; move_ratio.emplace(pos, ratio); }
  size_t best_move = std::max_element(move_ratio.begin(), move_ratio.end(), cmp-by-second)->first;
  return action::place(best_move, ...);

A root child is embedded as the pair `(pos, visits)`; the `std::map` keyed
by `pos` is embedded as an association list sorted strictly by key.  The
visit counts stay far below `2^24`, so the `float` cast is exact and the
ratio is kept as `ℕ`.  `none` embeds the empty `action()`. -/

/-- Embeds `std::map<size_t,float>::emplace`: ordered insert that does
nothing when the key is already present. -/
def map_emplace : List (ℕ × ℕ) → ℕ × ℕ → List (ℕ × ℕ)
  | [], p => [p]
  | q :: l, p =>
      if p.1 < q.1 then p :: q :: l
      else if p.1 = q.1 then q :: l
      else q :: map_emplace l p

/-- The `move_ratio` map after the loop over the root's children
(`children` in child order, each child as `(pos, visits)`). -/
def move_ratio (children : List (ℕ × ℕ)) : List (ℕ × ℕ) :=
  children.foldl map_emplace []

/-- Embeds the tail of `take_action`: empty children give the empty
`action()` (`none`); otherwise the key of the first entry of `move_ratio`
attaining the maximal value is played. -/
def take_action_select (children : List (ℕ × ℕ)) : Option ℕ :=
  if children = [] then none
  else
    let m := move_ratio children
    some (m.getD (maxElemIdx (m.map Prod.snd)) (0, 0)).1

theorem map_emplace_perm (p : ℕ × ℕ) :
    ∀ l : List (ℕ × ℕ), p.1 ∉ l.map Prod.fst → (map_emplace l p).Perm (p :: l) := by
  intro l
  induction l with
  | nil => intro h; simp [map_emplace]
  | cons q l ih =>
      intro h
      have hq : p.1 ≠ q.1 := by
        intro hcon
        exact h (by simp [hcon])
      have hl : p.1 ∉ l.map Prod.fst := by
        intro hcon
        exact h (by simp [hcon])
      simp only [map_emplace]
      by_cases h1 : p.1 < q.1
      · rw [if_pos h1]
      · rw [if_neg h1, if_neg hq]
        exact List.Perm.trans ((ih hl).cons q) (List.Perm.swap p q l)

theorem foldl_map_emplace_perm :
    ∀ (children acc : List (ℕ × ℕ)),
      (children.map Prod.fst).Nodup →
      (∀ p ∈ children, p.1 ∉ acc.map Prod.fst) →
      (children.foldl map_emplace acc).Perm (acc ++ children) := by
  intro children
  induction children with
  | nil => intro acc _ _; simp
  | cons c cs ih =>
      intro acc hnd hdisj
      simp only [List.foldl_cons]
      have hc : c.1 ∉ acc.map Prod.fst := hdisj c (List.mem_cons_self c cs)
      have hperm : (map_emplace acc c).Perm (c :: acc) := map_emplace_perm c acc hc
      have hnd2 : (c.1 :: cs.map Prod.fst).Nodup := by simpa using hnd
      have hnd' : (cs.map Prod.fst).Nodup := (List.nodup_cons.mp hnd2).2
      have hcnotin : c.1 ∉ cs.map Prod.fst := (List.nodup_cons.mp hnd2).1
      have hdisj' : ∀ p ∈ cs, p.1 ∉ (map_emplace acc c).map Prod.fst := by
        intro p hp hcon
        have : p.1 ∈ (c :: acc).map Prod.fst :=
          (hperm.map Prod.fst).mem_iff.mp hcon
        rcases List.mem_cons.mp this with h1 | h1
        · exact hcnotin (h1 ▸ List.mem_map_of_mem Prod.fst hp)
        · exact hdisj p (List.mem_cons_of_mem c hp) h1
      have h1 := ih (map_emplace acc c) hnd' hdisj'
      have h2 : ((map_emplace acc c) ++ cs).Perm ((c :: acc) ++ cs) :=
        hperm.append_right cs
      exact h1.trans (h2.trans List.perm_middle.symm)

/-- C1: `take_action` returns the move of a root child with the highest
visit count — the ratio entered into `move_ratio` is the visit count, not
the win ratio — and returns the empty `action()` (`none`) when the root has
no children.  Root children carry pairwise distinct positions (each is
created from a distinct untried move), which the `Nodup` hypothesis
records. -/
theorem take_action_returns_most_visited_child (children : List (ℕ × ℕ)) :
    (children = [] → take_action_select children = none) ∧
    ((children.map Prod.fst).Nodup → children ≠ [] →
      ∃ p v, take_action_select children = some p ∧ (p, v) ∈ children ∧
        ∀ q ∈ children, q.2 ≤ v) := by
  constructor
  · intro h
    simp [take_action_select, h]
  · intro hnd hne
    have hperm : (move_ratio children).Perm children := by
      simpa using foldl_map_emplace_perm children [] hnd (by simp)
    have hmne : move_ratio children ≠ [] := by
      intro h
      exact hne (((h ▸ hperm).symm).eq_nil)
    have hvne : (move_ratio children).map Prod.snd ≠ [] := by
      simpa using hmne
    obtain ⟨hi, hmax, -⟩ := maxElemIdx_spec ((move_ratio children).map Prod.snd) hvne
    have hilt : maxElemIdx ((move_ratio children).map Prod.snd) <
        (move_ratio children).length := by
      simpa using hi
    refine ⟨((move_ratio children).get ⟨_, hilt⟩).1,
            ((move_ratio children).get ⟨_, hilt⟩).2, ?_, ?_, ?_⟩
    · unfold take_action_select
      rw [if_neg hne]
      show some (((move_ratio children).getD
        (maxElemIdx ((move_ratio children).map Prod.snd)) (0, 0)).1) = _
      rw [List.getD_eq_getElem _ _ hilt]
      rfl
    · exact hperm.mem_iff.mp (by simpa using List.get_mem (move_ratio children) _ hilt)
    · intro q hq
      have hqm : q ∈ move_ratio children := hperm.mem_iff.mpr hq
      have := hmax q.2 (List.mem_map_of_mem Prod.snd hqm)
      rwa [List.get_map] at this

/-- Witness for C1 at a concrete child list. -/
theorem take_action_returns_most_visited_child_witness :
    ∃ p v, take_action_select [(3, 5), (7, 2)] = some p ∧
      (p, v) ∈ [(3, 5), (7, 2)] ∧ ∀ q ∈ [(3, 5), (7, 2)], q.2 ≤ v :=
  (take_action_returns_most_visited_child [(3, 5), (7, 2)]).2 (by decide) (by decide)

/-! ### UCT child selection (`Node::get_UCT_child`, lines 587-601)

  Node *get_UCT_child() {
    for (auto &child : children_) {
      child.uct_score_ =
          double(child.wins_) / double(child.visits_) +
          std::sqrt(std::log(double(visits_)) / child.visits_) * exploration_constant;
    }
    return &*std::max_element(children_.begin(), children_.end(),
                              [](const Node &lhs, const Node &rhs) {
                                return lhs.uct_score_ < rhs.uct_score_; });
  }

`double` is modelled as `ℝ`.  A child is reduced to the three fields the
function reads or writes; the node to its own visit counter, its
`exploration_constant` member and its children.  On an empty child vector
`std::max_element` returns `end()` and `&*end()` has no defined result:
that code path is embedded as `none`; the function performs no emptiness
check of its own. -/

/-- The three fields of a child that `get_UCT_child` touches:
`wins_`, `visits_` and the cached `uct_score_`. -/
structure ChildStat where
  wins : ℕ
  visits : ℕ
  uct_score : ℝ

/-- The fields of a node that `get_UCT_child` reads: its own `visits_`,
its `exploration_constant` member, and its children. -/
structure UNode where
  visits : ℕ
  exploration_constant : ℝ
  children : List ChildStat

/-- The UCT score assigned to `child.uct_score_`. -/
noncomputable def uct_score_of (c : ℝ) (parentVisits childWins childVisits : ℕ) : ℝ :=
  (childWins : ℝ) / (childVisits : ℝ) +
    Real.sqrt (Real.log (parentVisits : ℝ) / (childVisits : ℝ)) * c

/-- The cache write of the loop body of `get_UCT_child`: overwrites the
child's `uct_score_` with the score computed from the parent's counters and
`exploration_constant`. -/
noncomputable def score_child (n : UNode) (ch : ChildStat) : ChildStat :=
  { ch with uct_score := uct_score_of n.exploration_constant n.visits ch.wins ch.visits }

/-- Embeds `Node::get_UCT_child`: writes every child's `uct_score_`, then
returns the `std::max_element` of the children by score together with the
node as mutated by the cache writes.  `none` is the undefined result
`&*end()` on an empty child vector; the source performs no emptiness check. -/
noncomputable def get_UCT_child (n : UNode) : Option (UNode × ℕ) :=
  if (n.children.map (score_child n)).isEmpty then none
  else some ({ n with children := n.children.map (score_child n) },
    maxElemIdx ((n.children.map (score_child n)).map ChildStat.uct_score))

/-! ### The two `exploration_constant` members (lines 397-402, 517, 648)

`MCTS_player` parses its own `double exploration_constant = 0.25` from the
`exp` option (`try { exploration_constant = std::stod(exp_cons()); } catch ...`),
but the nested class `Node` declares a separate member
`double exploration_constant = 0.25;` which no code ever assigns, and
`get_UCT_child` — a member of `Node` — reads the node's member, never the
player's. -/

/-- The player's `exploration_constant` after construction: the parsed
value of the `exp` option, or the default `0.25` when the option is absent
or `std::stod` throws. -/
def MCTS_player_exploration_constant (expParse : Option ℝ) : ℝ :=
  expParse.getD 0.25

/-- The player's `cycles` after construction: the parsed value of the `T`
option, or the default `1000`. -/
def MCTS_player_cycles (tParse : Option ℤ) : ℤ :=
  tParse.getD 1000

/-- `Node::exploration_constant`: fixed by its member initializer to `0.25`;
the `Node` constructor (lines 552-571) assigns `engine_`, `bw_`, `pos_`,
`parent_` and fills `moves_`, and never writes this member. -/
def Node_exploration_constant : ℝ := 0.25

/-- A node as created during a search: whatever its counters and children,
its `exploration_constant` member is the initializer value. -/
def mkUNode (visits : ℕ) (children : List ChildStat) : UNode :=
  ⟨visits, Node_exploration_constant, children⟩

theorem get_UCT_child_eq (n : UNode)
    (h : (n.children.map (score_child n)).isEmpty = false) :
    get_UCT_child n = some ({ n with children := n.children.map (score_child n) },
      maxElemIdx ((n.children.map (score_child n)).map ChildStat.uct_score)) := by
  unfold get_UCT_child
  simp only [h, Bool.false_eq_true, if_false]

/-- C3: on a node with at least one child, `get_UCT_child` returns the
child whose score `wins/visits + sqrt(ln(parent.visits)/child.visits) * C`
is maximal, ties broken by the first occurrence in child order, and a
repeated call returns the same child and the same node again (the only
write, the `uct_score_` cache, is idempotent for fixed statistics). -/
theorem get_UCT_child_selects_first_max_score (n : UNode) (hne : n.children ≠ []) :
    ∃ (idx : ℕ) (scoredNode : UNode),
      get_UCT_child n = some (scoredNode, idx) ∧
      (∃ hidx : idx < (n.children.map (fun ch =>
          uct_score_of n.exploration_constant n.visits ch.wins ch.visits)).length,
        (∀ s ∈ n.children.map (fun ch =>
            uct_score_of n.exploration_constant n.visits ch.wins ch.visits),
          s ≤ (n.children.map (fun ch =>
            uct_score_of n.exploration_constant n.visits ch.wins ch.visits)).get ⟨idx, hidx⟩) ∧
        (∀ m, ∀ hm : m < (n.children.map (fun ch =>
            uct_score_of n.exploration_constant n.visits ch.wins ch.visits)).length,
          m < idx →
          (n.children.map (fun ch =>
            uct_score_of n.exploration_constant n.visits ch.wins ch.visits)).get ⟨m, hm⟩ <
          (n.children.map (fun ch =>
            uct_score_of n.exploration_constant n.visits ch.wins ch.visits)).get ⟨idx, hidx⟩)) ∧
      get_UCT_child scoredNode = some (scoredNode, idx) := by
  have hempty : (n.children.map (score_child n)).isEmpty = false := by
    obtain ⟨c, cs, hcc⟩ := List.exists_cons_of_ne_nil hne
    rw [hcc]
    rfl
  have hmaps : (n.children.map (score_child n)).map ChildStat.uct_score =
      n.children.map (fun ch =>
        uct_score_of n.exploration_constant n.visits ch.wins ch.visits) := by
    rw [List.map_map]
    rfl
  refine ⟨maxElemIdx ((n.children.map (score_child n)).map ChildStat.uct_score),
    { n with children := n.children.map (score_child n) },
    get_UCT_child_eq n hempty, ?_, ?_⟩
  · rw [hmaps]
    have hvne : (n.children.map (fun ch =>
        uct_score_of n.exploration_constant n.visits ch.wins ch.visits)) ≠ [] := by
      simpa using hne
    obtain ⟨hi, hmax, hfirst⟩ := maxElemIdx_spec _ hvne
    exact ⟨hi, hmax, hfirst⟩
  · -- the repeated call recomputes identical scores from unchanged statistics
    have hstable : ({ n with children := n.children.map (score_child n) } : UNode).children.map
        (score_child { n with children := n.children.map (score_child n) }) =
        n.children.map (score_child n) := by
      show (n.children.map (score_child n)).map
        (score_child { n with children := n.children.map (score_child n) }) =
        n.children.map (score_child n)
      rw [List.map_map]
      rfl
    have hempty2 : (({ n with children := n.children.map (score_child n) } : UNode).children.map
        (score_child { n with children := n.children.map (score_child n) })).isEmpty = false := by
      rw [hstable]
      exact hempty
    rw [get_UCT_child_eq _ hempty2]
    rw [hstable]

/-- Witness for C3 at a node with one child of one visit. -/
theorem get_UCT_child_selects_first_max_score_witness :
    ∃ (idx : ℕ) (scoredNode : UNode),
      get_UCT_child ⟨1, 0.25, [⟨0, 1, 0⟩]⟩ = some (scoredNode, idx) := by
  obtain ⟨idx, sn, h1, -, -⟩ :=
    get_UCT_child_selects_first_max_score ⟨1, 0.25, [⟨0, 1, 0⟩]⟩ (by simp)
  exact ⟨idx, sn, h1⟩

/-- C4: refuted on the code — the `exp` option is parsed into
`MCTS_player::exploration_constant`, but `Node::get_UCT_child` reads the
separate member `Node::exploration_constant`, which keeps its initializer
`0.25` in every node of every search; a player configured with `exp=1.5`
still scores children with `C = 0.25`. -/
theorem exploration_constant_not_propagated_to_nodes :
    MCTS_player_exploration_constant (some 1.5) = 1.5 ∧
    (∀ (v : ℕ) (ch : List ChildStat), (mkUNode v ch).exploration_constant = 0.25) ∧
    MCTS_player_exploration_constant (some 1.5) ≠ (mkUNode 5 []).exploration_constant ∧
    get_UCT_child (mkUNode 1 [⟨0, 1, 0⟩]) =
      some (⟨1, Node_exploration_constant,
        [⟨0, 1, uct_score_of Node_exploration_constant 1 0 1⟩]⟩, 0) := by
  refine ⟨rfl, fun v ch => rfl, ?_, ?_⟩
  · show (1.5 : ℝ) ≠ Node_exploration_constant
    unfold Node_exploration_constant
    norm_num
  · rfl

/-- C9 counterexample: on a concrete childless node, `get_UCT_child`
reaches `&*std::max_element(begin, end)` on an empty range — the
undefined-result path (`none`) — with no assertion and no explicit error
anywhere on the path. -/
theorem get_UCT_child_childless_not_loud :
    get_UCT_child ⟨3, 0.25, []⟩ = none := rfl

/-- C9 (amended): `get_UCT_child` performs no emptiness check at all: on
every node with no children it dereferences the past-the-end iterator and
yields an undefined result (`none`); the precondition is trusted, never
verified. -/
theorem get_UCT_child_childless_undefined (n : UNode) (h : n.children = []) :
    get_UCT_child n = none := by
  unfold get_UCT_child
  rw [h]
  rfl

/-- Witness for the amended C9 theorem. -/
theorem get_UCT_child_childless_undefined_witness :
    get_UCT_child ⟨7, 0.25, []⟩ = none :=
  get_UCT_child_childless_undefined ⟨7, 0.25, []⟩ rfl

/-! ### Random-source ownership (`Node::Node` lines 552-557, `pop_untried_move`
lines 606-612, `add_child` lines 615-620, rollout lines 462-463)

The constructor signature is `Node(std::default_random_engine engine, ...)`
— the engine is passed **by value** — and the body stores `engine_ = engine`,
so every node owns an independent copy of the driver's engine frozen at the
node's creation; `pop_untried_move` draws from the node's copy
(`choose(engine_)`), while the rollout draws from the driver's member
(`choose(engine)`).  `std::default_random_engine` is libstdc++'s
`minstd_rand0`, the LCG `s ↦ s * 16807 mod 2147483647`, whose raw output is
its new state.  Each draw is embedded at the granularity that decides the
claim: which engine cell it reads and advances. -/

/-- One step/output of `minstd_rand0`. -/
def lcg_next (s : ℕ) : ℕ := s * 16807 % 2147483647

/-- The engine cells live during a search: the driver's member `engine` and
the root node's copy `engine_`. -/
structure CodeEngines where
  driver : ℕ
  rootCopy : ℕ
  deriving DecidableEq, Repr

/-- `Node root(engine, b, 1-who, space_size)`: the driver's engine is passed
by value, so the root's `engine_` becomes a copy of the driver state. -/
def mk_root_engines (seed : ℕ) : CodeEngines := ⟨seed, seed⟩

/-- A draw of `pop_untried_move` (`choose(engine_)`): reads and advances the
node's own copy, leaving the driver's engine untouched. -/
def pop_untried_move_draw (e : CodeEngines) : ℕ × CodeEngines :=
  (lcg_next e.rootCopy, ⟨e.driver, lcg_next e.rootCopy⟩)

/-- A draw of the rollout loop (`choose(engine)`): reads and advances the
driver's member engine. -/
def rollout_draw (e : CodeEngines) : ℕ × CodeEngines :=
  (lcg_next e.driver, ⟨lcg_next e.driver, e.rootCopy⟩)

/-- The single-shared-stream model required by the claim: every draw reads
the one state and advances it. -/
def shared_stream_draw (s : ℕ) : ℕ × ℕ := (lcg_next s, lcg_next s)

/-- C5: refuted on the code — `pop_untried_move` draws from the node's
private copy of the engine and never advances the driver's stream, so the
first expansion draw and the first rollout draw of a search read the same
engine state and return the same raw output for every seed; with seed 1 the
code's first two draws are (16807, 16807) while one threaded shared stream
yields (16807, 282475249). -/
theorem per_node_engine_copy_desynchronizes :
    (∀ e : CodeEngines, (pop_untried_move_draw e).2.driver = e.driver) ∧
    (∀ seed : ℕ,
      (pop_untried_move_draw (mk_root_engines seed)).1 =
      (rollout_draw (pop_untried_move_draw (mk_root_engines seed)).2).1) ∧
    (pop_untried_move_draw (mk_root_engines 1)).1 = 16807 ∧
    (rollout_draw (pop_untried_move_draw (mk_root_engines 1)).2).1 = 16807 ∧
    (shared_stream_draw 1).1 = 16807 ∧
    (shared_stream_draw (shared_stream_draw 1).2).1 = 282475249 ∧
    ((pop_untried_move_draw (mk_root_engines 1)).1,
      (rollout_draw (pop_untried_move_draw (mk_root_engines 1)).2).1) ≠
    ((shared_stream_draw 1).1,
      (shared_stream_draw (shared_stream_draw 1).2).1) := by
  refine ⟨fun e => rfl, fun seed => rfl, rfl, rfl, rfl, by decide, by decide⟩

/-! ### Rollout termination (`MCTS_player::take_action`, lines 450-476)

  while (true) {
    std::vector<size_t> moves;
    for (size_t i = 0; i < board::size_x * board::size_y ; i++){
      action::place m = action::place(i, ...); board tmp = board(b);
      if (m.apply(tmp) == board::legal) moves.push_back(i);
    }
    if (moves.empty()) break;
    ... pick pos uniformly, erase it from the local vector ...
    action::place move = action::place(pos, ...); move.apply(b);
    bw = 1 - bw;
  };
  size_t winner = 1 - bw;

Modelled from the spec: `board.h` (the Board Oracle) is outside the
analyzed sources.  Per the spec a board is a fixed set of cells, a legal
placement targets an empty cell, and applying it permanently occupies that
cell ("each ply either permanently removes one legal destination or ends
the game").  A board is embedded as its occupancy vector `List Bool`
(length = `size_x * size_y`), legality as an arbitrary oracle `legalb`
subject only to the contract that a legal move's cell is empty, and
`move.apply(b)` as setting the cell.  `rs` gives the raw draws of the
uniform index choice; the `moves.erase(it)` of the source acts on the local
vector that is rebuilt next pass, so it affects nothing. -/

/-- The legal-move enumeration of one rollout ply. -/
def rollout_moves (legalb : List Bool → ℕ → ℕ → Bool) (b : List Bool) (bw : ℕ) : List ℕ :=
  (List.range b.length).filter (fun i => legalb b bw i)

/-- The rollout loop with an explicit ply budget `fuel`; `none` means the
budget ran out before a player was stuck, `some w` that the loop ended with
winner `w = 1 - bw`. -/
def rollout (legalb : List Bool → ℕ → ℕ → Bool) (rs : ℕ → ℕ) :
    ℕ → List Bool → ℕ → ℕ → Option ℕ
  | 0, b, bw, _ =>
      if (rollout_moves legalb b bw).isEmpty then some (1 - bw) else none
  | fuel + 1, b, bw, k =>
      if (rollout_moves legalb b bw).isEmpty then some (1 - bw)
      else
        rollout legalb rs fuel
          (b.set ((rollout_moves legalb b bw).getD
            (rs k % (rollout_moves legalb b bw).length) 0) true)
          (1 - bw) (k + 1)

theorem count_false_set_true (b : List Bool) :
    ∀ pos, b.get? pos = some false →
      (b.set pos true).count false + 1 = b.count false := by
  induction b with
  | nil => intro pos h; simp at h
  | cons x xs ih =>
      intro pos h
      match pos with
      | 0 =>
          have hx : x = false := by simpa using h
          subst hx
          simp [List.count_cons]
      | Nat.succ p =>
          have hp : xs.get? p = some false := by simpa using h
          simp only [List.set]
          rcases x with - | -
          · simp only [List.count_cons]
            have := ih p hp
            omega
          · simp only [List.count_cons]
            have := ih p hp
            omega

theorem rollout_moves_cell_empty (legalb : List Bool → ℕ → ℕ → Bool)
    (H : ∀ b bw i, legalb b bw i = true → b.get? i = some false)
    (b : List Bool) (bw : ℕ) :
    ∀ pos ∈ rollout_moves legalb b bw, b.get? pos = some false := by
  intro pos hpos
  have := List.of_mem_filter hpos
  exact H b bw pos (by simpa using this)

theorem rollout_isSome_of_count_le (legalb : List Bool → ℕ → ℕ → Bool)
    (rs : ℕ → ℕ)
    (H : ∀ b bw i, legalb b bw i = true → b.get? i = some false) :
    ∀ fuel b bw k, b.count false ≤ fuel →
      (rollout legalb rs fuel b bw k).isSome = true := by
  intro fuel
  induction fuel with
  | zero =>
      intro b bw k hcount
      by_cases hmv : (rollout_moves legalb b bw).isEmpty
      · simp [rollout, hmv]
      · exfalso
        have hne : rollout_moves legalb b bw ≠ [] := by
          simpa [List.isEmpty_iff] using hmv
        obtain ⟨pos, t, hpt⟩ := List.exists_cons_of_ne_nil hne
        have hmem : pos ∈ rollout_moves legalb b bw := by
          rw [hpt]; exact List.mem_cons_self pos t
        have hcell := rollout_moves_cell_empty legalb H b bw pos hmem
        have hfmem : (false : Bool) ∈ b := List.get?_mem hcell
        have := List.count_pos_iff_mem.mpr hfmem
        omega
  | succ fuel ih =>
      intro b bw k hcount
      by_cases hmv : (rollout_moves legalb b bw).isEmpty
      · simp [rollout, hmv]
      · have hne : rollout_moves legalb b bw ≠ [] := by
          simpa [List.isEmpty_iff] using hmv
        have hlenpos : 0 < (rollout_moves legalb b bw).length :=
          List.length_pos.mpr hne
        have hidx : rs k % (rollout_moves legalb b bw).length <
            (rollout_moves legalb b bw).length :=
          Nat.mod_lt _ hlenpos
        have hmem : (rollout_moves legalb b bw).getD
            (rs k % (rollout_moves legalb b bw).length) 0 ∈
            rollout_moves legalb b bw := by
          rw [List.getD_eq_getElem _ _ hidx]
          exact List.getElem_mem hidx
        have hcell := rollout_moves_cell_empty legalb H b bw _ hmem
        have hdec := count_false_set_true b _ hcell
        have hrec := ih (b.set ((rollout_moves legalb b bw).getD
            (rs k % (rollout_moves legalb b bw).length) 0) true) (1 - bw) (k + 1)
          (by omega)
        simp only [rollout]
        rw [if_neg (by simpa [List.isEmpty_iff] using hne)]
        exact hrec

/-- C7: from every starting state the rollout loop ends — with the stuck
player's opponent as winner — within `N` plies, `N` = the number of board
cells (`size_x * size_y` = the length of the occupancy vector): each ply
permanently occupies one previously empty cell, or the loop stops because
the player to act has no legal move. -/
theorem rollout_terminates_within_cell_count (legalb : List Bool → ℕ → ℕ → Bool)
    (rs : ℕ → ℕ) (b : List Bool) (bw : ℕ)
    (H : ∀ b' bw' i, legalb b' bw' i = true → b'.get? i = some false) :
    (rollout legalb rs b.length b bw 0).isSome = true :=
  rollout_isSome_of_count_le legalb rs H b.length b bw 0 (List.count_le_length false b)

/-- Witness for C7 on a 2-cell board whose oracle allows every empty cell. -/
theorem rollout_terminates_within_cell_count_witness :
    (rollout (fun b _ i => match b.get? i with | some false => true | _ => false)
      (fun _ => 0) 2 [false, false] 1 0).isSome = true := by
  refine rollout_terminates_within_cell_count _ (fun _ => 0) [false, false] 1 ?_
  intro b' bw' i h
  cases hv : b'.get? i with
  | none => rw [hv] at h; simp at h
  | some v =>
      cases v with
      | false => rfl
      | true => rw [hv] at h; simp at h

/-! ### One search iteration on the tree and child visit positivity
(`MCTS_player::take_action`, lines 425-490)

One iteration of the do-while loop walks a root-to-node path: the selection
descent (`while (!node->has_untried_moves() && node->has_children()) node =
node->get_UCT_child(); ...`), then the expansion (`pop_untried_move`
erases one untried move and `add_child` appends a node whose counters start
at the member initializers `0`), then backpropagation gives every node on
the walked path — the new child included — exactly one
`update(winner == bw_)`.  The whole iteration is embedded as one recursive
tree transformation.  The data the iteration consumes — which child the
UCT argmax selects at each depth, which untried move the uniform draw pops,
the rollout winner, and the Board-Oracle move list of the new child — is
supplied by an oracle `IterChoice`, so the theorems below hold for every
value of that data, in particular for the values the C++ search computes. -/

/-- A search-tree node: its `bw_` field, counters, untried moves `moves_`
and children. -/
inductive MTree : Type where
  | mk (bw : ℕ) (visits : ℕ) (wins : ℕ) (moves : List ℕ) (children : List MTree)

/-- The `visits_` counter. -/
def MTree.visits : MTree → ℕ
  | .mk _ v _ _ _ => v

/-- The child vector `children_`. -/
def MTree.children : MTree → List MTree
  | .mk _ _ _ _ c => c

/-- The data one iteration consumes: the selected child index at each
selection depth, the popped untried-move index, the rollout winner, and the
legal moves of the newly expanded node. -/
structure IterChoice where
  sel : ℕ → ℕ
  popIdx : ℕ
  winner : ℕ
  newMoves : List ℕ

/-- Win increment of `update(winner == bw_)`. -/
def winInc (winner bw : ℕ) : ℕ := if winner = bw then 1 else 0

/-- One `update(winner == bw_)` call applied at a node. -/
def updateT (winner : ℕ) : MTree → MTree
  | .mk bw v w u c => .mk bw (v + 1) (w + winInc winner bw) u c

/-- One full iteration below (and including) the given node at selection
depth `d`, matching the loop conditions of the source: a node with no
untried moves but children is descended through (selection), a node with
untried moves is expanded (`pop_untried_move` erases the drawn move,
`add_child` appends a node with counters at their `0` initializers), and a
childless fully-tried node is terminal; on the way back up every node of
the walked path — the new child included — receives exactly one
`update(winner == bw_)` (backpropagation). -/
def simIter (ch : IterChoice) : ℕ → MTree → MTree
  | d, .mk bw v w [] (c0 :: cs) =>
      updateT ch.winner (.mk bw v w []
        ((c0 :: cs).set (ch.sel d % (c0 :: cs).length)
          (simIter ch (d + 1)
            ((c0 :: cs).get ⟨ch.sel d % (c0 :: cs).length,
              Nat.mod_lt _ (by simp)⟩))))
  | _, .mk bw v w (m0 :: ms) c =>
      updateT ch.winner (.mk bw v w
        ((m0 :: ms).eraseIdx (ch.popIdx % (m0 :: ms).length))
        (c ++ [updateT ch.winner (.mk (1 - bw) 0 0 ch.newMoves [])]))
  | _, .mk bw v w [] [] =>
      updateT ch.winner (.mk bw v w [] [])
termination_by d t => sizeOf t
decreasing_by
  have hmem : ((c0 :: cs).get ⟨ch.sel d % (c0 :: cs).length,
      Nat.mod_lt _ (by simp)⟩) ∈ c0 :: cs :=
    List.get_mem _ _ _
  have := List.sizeOf_lt_of_mem hmem
  simp only [MTree.mk.sizeOf_spec]
  omega

/-- The root node built at the top of `take_action`
(`Node root(engine, b, 1-who, space_size)`): counters at their member
initializers, no children, `moves_` filled from the Board Oracle. -/
def mcts_root (who : ℕ) (rootMoves : List ℕ) : MTree :=
  .mk (1 - who) 0 0 rootMoves []

/-- The tree after `k` iterations of the search loop driven by the
iteration oracle `O`. -/
def mcts_run (O : ℕ → IterChoice) : ℕ → MTree → MTree
  | 0, t => t
  | k + 1, t => mcts_run O k (simIter (O k) 0 t)

/-- `IsNodeOf t' t`: `t'` is a node of the tree rooted at `t`. -/
inductive IsNodeOf : MTree → MTree → Prop where
  | refl (t : MTree) : IsNodeOf t t
  | step {t' s t : MTree} : s ∈ t.children → IsNodeOf t' s → IsNodeOf t' t

/-- Every child of every node of `t` has been visited at least once. -/
def allChildrenVisited (t : MTree) : Prop :=
  ∀ t', IsNodeOf t' t → ∀ c ∈ t'.children, 1 ≤ c.visits

theorem acv_mk (bw v w : ℕ) (u : List ℕ) (c : List MTree) :
    allChildrenVisited (.mk bw v w u c) ↔
      (∀ s ∈ c, 1 ≤ s.visits) ∧ (∀ s ∈ c, allChildrenVisited s) := by
  constructor
  · intro h
    refine ⟨fun s hs => h (.mk bw v w u c) (IsNodeOf.refl _) s hs,
            fun s hs t' ht' => h t' (IsNodeOf.step hs ht')⟩
  · rintro ⟨h1, h2⟩ t' hno
    cases hno with
    | refl => exact h1
    | step hs hrest => exact h2 _ hs _ hrest

theorem simIter_visits (ch : IterChoice) (d : ℕ) (t : MTree) :
    (simIter ch d t).visits = t.visits + 1 := by
  cases t with
  | mk bw v w u c =>
      cases u with
      | cons m0 ms => simp only [simIter, updateT, MTree.visits]
      | nil =>
          cases c with
          | nil => simp only [simIter, updateT, MTree.visits]
          | cons c0 cs => simp only [simIter, updateT, MTree.visits]

theorem simIter_preserves_acv (ch : IterChoice) :
    ∀ (n : ℕ) (t : MTree), sizeOf t ≤ n → ∀ d, allChildrenVisited t →
      allChildrenVisited (simIter ch d t) := by
  intro n
  induction n with
  | zero =>
      intro t ht
      cases t with
      | mk bw v w u c =>
          simp only [MTree.mk.sizeOf_spec] at ht
          omega
  | succ n ih =>
      intro t ht d hacv
      cases t with
      | mk bw v w u c =>
          obtain ⟨h1, h2⟩ := (acv_mk bw v w u c).mp hacv
          cases u with
          | cons m0 ms =>
              simp only [simIter, updateT]
              rw [acv_mk]
              constructor
              · intro s hs
                rcases List.mem_append.mp hs with hs | hs
                · exact h1 s hs
                · rw [List.mem_singleton.mp hs]
                  simp [MTree.visits]
              · intro s hs
                rcases List.mem_append.mp hs with hs | hs
                · exact h2 s hs
                · rw [List.mem_singleton.mp hs, acv_mk]
                  exact ⟨by simp, by simp⟩
          | nil =>
              cases c with
              | nil =>
                  simp only [simIter, updateT]
                  rw [acv_mk]
                  exact ⟨h1, h2⟩
              | cons c0 cs =>
                  simp only [simIter, updateT]
                  rw [acv_mk]
                  have hlt : ch.sel d % (c0 :: cs).length < (c0 :: cs).length :=
                    Nat.mod_lt _ (by simp)
                  have hszc : sizeOf ((c0 :: cs).get ⟨ch.sel d % (c0 :: cs).length, hlt⟩) <
                      sizeOf (c0 :: cs) :=
                    List.sizeOf_lt_of_mem (List.get_mem _ _ _)
                  have hsub : sizeOf ((c0 :: cs).get ⟨ch.sel d % (c0 :: cs).length, hlt⟩) ≤ n := by
                    simp only [MTree.mk.sizeOf_spec] at ht
                    omega
                  constructor
                  · intro s hs
                    rcases List.mem_or_eq_of_mem_set hs with hs | hs
                    · exact h1 s hs
                    · rw [hs, simIter_visits]
                      omega
                  · intro s hs
                    rcases List.mem_or_eq_of_mem_set hs with hs | hs
                    · exact h2 s hs
                    · rw [hs]
                      exact ih _ hsub (d + 1) (h2 _ (List.get_mem _ _ _))

theorem mcts_run_acv (O : ℕ → IterChoice) :
    ∀ (k : ℕ) (t : MTree), allChildrenVisited t →
      allChildrenVisited (mcts_run O k t) := by
  intro k
  induction k with
  | zero => intro t h; exact h
  | succ k ih =>
      intro t h
      rw [mcts_run]
      exact ih _ (simIter_preserves_acv (O k) (sizeOf t) t (le_refl _) 0 h)

/-- C10: after any number of complete search iterations — which is exactly
when the next iteration's selection loop can invoke `get_UCT_child` —
every child of every node of the tree has `visits_ ≥ 1` (every node other
than the root was created by an expansion and updated by that same
iteration's backpropagation before any selection can score it), so the
divisions `wins_/visits_` and `log(visits_)/child.visits_` of the UCT score
never divide by zero.  The oracle `O` ranges over all possible
selection/expansion/rollout outcomes, the code's among them. -/
theorem search_children_always_visited (who : ℕ) (rootMoves : List ℕ)
    (O : ℕ → IterChoice) (k : ℕ) (t' : MTree)
    (hmem : IsNodeOf t' (mcts_run O k (mcts_root who rootMoves))) :
    ∀ c ∈ t'.children, 1 ≤ c.visits := by
  have hroot : allChildrenVisited (mcts_root who rootMoves) := by
    unfold mcts_root
    rw [acv_mk]
    exact ⟨by simp, by simp⟩
  exact mcts_run_acv O k _ hroot t' hmem

/-- Witness for C10: a concrete two-iteration search (root with one legal
move; first iteration expands it, second iteration selects into it). -/
theorem search_children_always_visited_witness :
    1 ≤ (MTree.mk 1 2 0 [] []).visits := by
  have hrun : mcts_run (fun _ => ⟨fun _ => 0, 0, 0, []⟩) 2 (mcts_root 1 [0]) =
      MTree.mk 0 2 2 [] [MTree.mk 1 2 0 [] []] := by
    simp [mcts_run, mcts_root, simIter, updateT, winInc]
  exact search_children_always_visited 1 [0] (fun _ => ⟨fun _ => 0, 0, 0, []⟩) 2
    (MTree.mk 0 2 2 [] [MTree.mk 1 2 0 [] []])
    (by rw [hrun]; exact IsNodeOf.refl _)
    (MTree.mk 1 2 0 [] []) (List.mem_singleton.mpr rfl)
